import Mathlib

/-!
# Graph View Synchronization & Filtering Engine — verification

Shallow embedding of the client-side dependency-graph view engine
(`semantic_search_mcp/web/static/app.js`) and proofs about its behaviour:
the adjacency index (`buildAdjacencyList`), the indirect-connectivity BFS
(`hasIndirectPath`), inferred-edge synthesis (`addIndirectConnections`),
folder grouping (`generateFolderNodes`, parent assignment), snapshot
reloading (`reloadMainGraph`, both its store updates and its render-target
replacement), the highlight computation (`highlightNode`), the flag
toggles (`toggleImportant`, `toggleHidden`) and the WebSocket
change-notification handler (`connectWebSocket`'s `onmessage`).

The JS `while` loop of the BFS is embedded with an explicit fuel
parameter; a stabilisation theorem shows the result is independent of the
fuel once it exceeds an explicit bound, which is the termination content
of the visited-set guard.
-/

namespace GraphView

/-! ## Data model

A snapshot node as fetched from the backend (`/api/graph`): the fields the
engine reads (`id`, `label`, `directory`, `extension`, `type`,
`important`, `hidden`). -/

structure Node where
  id : String
  label : String
  directory : String
  extension : String
  nodeType : String
  important : Bool
  hidden : Bool
deriving DecidableEq, Repr

/-- A directed edge of a snapshot: `source` imports/depends on `target`. -/
structure Edge where
  source : String
  target : String
deriving DecidableEq, Repr

/-- A snapshot: complete node and edge listing. -/
structure Graph where
  nodes : List Node
  edges : List Edge
deriving DecidableEq, Repr

/-- The ids of a graph's nodes. -/
def Graph.ids (g : Graph) : List String := g.nodes.map Node.id

/-- Well-formedness of a snapshot: both endpoints of every edge appear in
the node list (the Edge invariant of the data model). -/
def Graph.WF (g : Graph) : Prop :=
  ∀ e ∈ g.edges, e.source ∈ g.ids ∧ e.target ∈ g.ids

instance (g : Graph) : Decidable g.WF := by
  unfold Graph.WF; infer_instance

/-! ## Association-list model of a JS object used as a map -/

/-- First-match lookup in an association list (a JS object's property
read: `m[k]`, `undefined` when absent). -/
def getKey? {α : Type} : List (String × α) → String → Option α
  | [], _ => none
  | (a, b) :: rest, k => if a = k then some b else getKey? rest k

/-- Property write `m[k] = v`: overwrite the binding if the key is
present, append it otherwise. -/
def setKey {α : Type} : List (String × α) → String → α → List (String × α)
  | [], k, v => [(k, v)]
  | (a, b) :: rest, k, v =>
      if a = k then (k, v) :: rest else (a, b) :: setKey rest k v

/-! ## Reachability Engine — `buildAdjacencyList`

```js
function buildAdjacencyList() {
    const adj = {};
    state.fullGraph.nodes.forEach(n => { adj[n.id] = []; });
    state.fullGraph.edges.forEach(e => {
        if (adj[e.source]) { adj[e.source].push(e.target); }
        if (adj[e.target]) { adj[e.target].push(e.source); }
    });
    return adj;
}
```
(the truthiness test `adj[k]` holds exactly when the key is present,
because the stored value is always an array). -/

/-- The adjacency index: a JS object mapping a node id to the array of
its undirected neighbours. -/
def AdjMap : Type := List (String × List String)

/-- `adj[current] || []`. -/
def lookupAdj (m : AdjMap) (k : String) : List String :=
  (getKey? m k).getD []

/-- `adj[n.id] = []` for every node. -/
def initAdj (nodes : List Node) : AdjMap :=
  nodes.foldl (fun m n => setKey m n.id ([] : List String)) []

/-- `if (adj[k]) { adj[k].push(x); }`. -/
def pushAdj (m : AdjMap) (k x : String) : AdjMap :=
  match getKey? m k with
  | some l => setKey m k (l ++ [x])
  | none => m

/-- Processing one edge: push the target onto the source's list and the
source onto the target's list, each guarded by key presence. -/
def addEdgeToAdj (m : AdjMap) (e : Edge) : AdjMap :=
  pushAdj (pushAdj m e.source e.target) e.target e.source

/-- `buildAdjacencyList` over a full graph. -/
def buildAdjacencyList (g : Graph) : AdjMap :=
  g.edges.foldl addEdgeToAdj (initAdj g.nodes)

/-! ## Reachability Engine — `hasIndirectPath`

```js
function hasIndirectPath(startId, endId, visibleNodeIds, adj) {
    if (startId === endId) return false;
    const visited = new Set();
    const queue = [startId];
    while (queue.length > 0) {
        const current = queue.shift();
        if (visited.has(current)) continue;
        visited.add(current);
        const neighbors = adj[current] || [];
        for (const neighbor of neighbors) {
            if (neighbor === endId) { return true; }
            if (!visibleNodeIds.has(neighbor) && !visited.has(neighbor)) {
                queue.push(neighbor);
            }
        }
    }
    return false;
}
```
The `while` loop is embedded with a fuel parameter; `bfsFuel` below is an
explicit bound past which the result no longer depends on the fuel. -/

/-- One JS `while` iteration per fuel unit: dequeue from the front, skip
visited vertices, otherwise expand the current vertex, returning `true`
as soon as `endId` is a neighbour and enqueueing the neighbours that are
neither visible nor already visited. -/
def bfsLoop (adj : AdjMap) (endId : String) (visible : List String) :
    Nat → List String → List String → Bool
  | 0, _, _ => false
  | _ + 1, _, [] => false
  | fuel + 1, visited, current :: queue =>
      if current ∈ visited then
        bfsLoop adj endId visible fuel visited queue
      else
        let neighbors := lookupAdj adj current
        if endId ∈ neighbors then true
        else
          bfsLoop adj endId visible fuel (current :: visited)
            (queue ++ neighbors.filter
              (fun x => decide (x ∉ visible) && decide (x ∉ current :: visited)))

/-- Every id that can ever sit in the queue: the start vertex together
with every value stored in the adjacency index. -/
def adjValues (m : AdjMap) : List String :=
  (m.map Prod.snd).flatten

/-- Total size of the adjacency index's value lists. -/
def totalAdjLen (m : AdjMap) : Nat :=
  (m.map (fun p => p.snd.length)).sum

/-- Fuel past which the BFS has provably reached its final answer. -/
def bfsFuel (m : AdjMap) : Nat :=
  1 + (1 + (adjValues m).length) * (1 + totalAdjLen m)

/-- `hasIndirectPath`, with the loop run on the sufficient fuel bound. -/
def hasIndirectPath (startId endId : String) (visible : List String) (adj : AdjMap) : Bool :=
  if startId = endId then false
  else bfsLoop adj endId visible (bfsFuel adj) [] [startId]

/-! ## Characterising the adjacency index -/

/-- `u` and `v` are joined by an edge of the graph, in either direction
("depends on" and "depended on by" both count). -/
def edgeBetween (g : Graph) (u v : String) : Prop :=
  ∃ e ∈ g.edges, (e.source = u ∧ e.target = v) ∨ (e.source = v ∧ e.target = u)

instance (g : Graph) (u v : String) : Decidable (edgeBetween g u v) := by
  unfold edgeBetween; infer_instance

/-! ## BFS soundness, completeness and termination -/

/-- There is a nonempty walk in the adjacency index from `u` to `endId`
all of whose intermediate vertices avoid `S`. -/
inductive ReachOutside (adj : AdjMap) (S : List String) (endId : String) : String → Prop
  | base {u : String} : endId ∈ lookupAdj adj u → ReachOutside adj S endId u
  | step {u v : String} : v ∈ lookupAdj adj u → v ∉ S →
      ReachOutside adj S endId v → ReachOutside adj S endId u

/-- Weight of the unvisited part of the universe `U`: one unit per vertex
plus one per adjacency entry, the work the BFS can still perform. -/
def remWeight (adj : AdjMap) (visited U : List String) : Nat :=
  ((U.dedup.filter (fun v => decide (v ∉ visited))).map
    (fun v => 1 + (lookupAdj adj v).length)).sum

/-- Decreasing measure of a loop state. -/
def bfsMeasure (adj : AdjMap) (visited queue U : List String) : Nat :=
  queue.length + remWeight adj visited U

/-- Concrete graph for the Reachability Engine witnesses: `a` and `b`
visible, joined only through the hidden node `h`. -/
def gReach : Graph :=
  { nodes := [⟨"a", "a", "", "py", "python", false, false⟩,
              ⟨"b", "b", "", "py", "python", false, false⟩,
              ⟨"h", "h", "", "py", "python", false, true⟩],
    edges := [⟨"a", "h"⟩, ⟨"h", "b"⟩] }

/-- A cyclic graph: `a → b → c → a`. -/
def gCycle : Graph :=
  { nodes := [⟨"a", "a", "", "py", "python", false, false⟩,
              ⟨"b", "b", "", "py", "python", false, false⟩,
              ⟨"c", "c", "", "py", "python", false, false⟩],
    edges := [⟨"a", "b"⟩, ⟨"b", "c"⟩, ⟨"c", "a"⟩] }

/-! ## Filter/Visibility Resolver — `addIndirectConnections`

```js
async function addIndirectConnections(visibleNodeIds) {
    const adj = buildAdjacencyList();
    const visibleArray = Array.from(visibleNodeIds);
    const existingEdges = new Set();
    state.cy.edges().forEach(edge => {
        existingEdges.add(`${edge.source().id()}-${edge.target().id()}`);
        existingEdges.add(`${edge.target().id()}-${edge.source().id()}`);
    });
    for (let i = 0; i < visibleArray.length; i++) {
        for (let j = i + 1; j < visibleArray.length; j++) {
            const nodeAId = visibleArray[i];
            const nodeBId = visibleArray[j];
            if (existingEdges.has(`${nodeAId}-${nodeBId}`)) { continue; }
            if (hasIndirectPath(nodeAId, nodeBId, visibleNodeIds, adj)) {
                state.cy.add({ group: 'edges', data: {
                    id: `indirect-${nodeAId}-${nodeBId}`,
                    source: nodeAId, target: nodeBId }, classes: 'indirect' });
            }
        }
    }
}
```
`visibleArray` is the visible set in its iteration (insertion) order; the
function takes it as the input list, which also serves as the membership
set passed to `hasIndirectPath`. -/

/-- A synthesized dashed inferred edge added to the render target. -/
structure IndirectEdge where
  id : String
  source : String
  target : String
deriving DecidableEq, Repr

/-- The template-string key `` `${a}-${b}` ``. -/
def pairKey (a b : String) : String := a ++ "-" ++ b

/-- The `existingEdges` set: both orientations of every rendered edge. -/
def directEdgeKeys (cyEdges : List Edge) : List String :=
  cyEdges.foldl
    (fun acc e => acc ++ [pairKey e.source e.target, pairKey e.target e.source]) []

/-- The pairs `(visibleArray[i], visibleArray[j])` for `i < j`, in loop
order. -/
def allPairs : List String → List (String × String)
  | [] => []
  | a :: rest => rest.map (fun b => (a, b)) ++ allPairs rest

/-- `addIndirectConnections`: the list of inferred edges added. -/
def addIndirectConnections (visibleArray : List String) (cyEdges : List Edge)
    (adj : AdjMap) : List IndirectEdge :=
  let existingEdges := directEdgeKeys cyEdges
  (allPairs visibleArray).filterMap (fun p =>
    if pairKey p.1 p.2 ∈ existingEdges then none
    else if hasIndirectPath p.1 p.2 visibleArray adj then
      some { id := "indirect-" ++ p.1 ++ "-" ++ p.2, source := p.1, target := p.2 }
    else none)

/-! ## Folder Grouping — `generateFolderNodes` and parent assignment

```js
function generateFolderNodes(nodes) {
    const folders = new Map();
    nodes.forEach(node => {
        const dir = node.data('directory');
        if (dir) {
            if (!folders.has(dir)) {
                folders.set(dir, { group: 'nodes', data: {
                    id: `folder:${dir}`, label: dir, type: 'folder' } });
            }
        }
    });
    return Array.from(folders.values());
}
```
and in `applyFolderGrouping`, each node with a non-empty directory is
re-parented under `` `folder:${dir}` ``. -/

/-- A synthetic folder container node. -/
structure FolderNode where
  id : String
  label : String
deriving DecidableEq, Repr

/-- `generateFolderNodes`: one container per distinct non-empty directory,
keyed by the **full** directory string, in first-occurrence order. -/
def generateFolderNodes (nodes : List Node) : List FolderNode :=
  (nodes.foldl
    (fun folders n =>
      if n.directory = "" then folders
      else if (getKey? folders n.directory).isSome then folders
      else folders ++
        [(n.directory,
          ({ id := "folder:" ++ n.directory, label := n.directory } : FolderNode))])
    ([] : List (String × FolderNode))).map Prod.snd

/-- The parent container assigned to a real node by
`applyFolderGrouping`: `folder:` followed by the full directory. -/
def folderParent (n : Node) : Option String :=
  if n.directory = "" then none else some ("folder:" ++ n.directory)

/-- Split a character list into path segments at `/`. -/
def splitSegs : List Char → List (List Char)
  | [] => [[]]
  | c :: rest =>
      match splitSegs rest with
      | seg :: segs => if c = '/' then [] :: seg :: segs else (c :: seg) :: segs
      | [] => [[]]

/-- Join path segments back with `/`. -/
def joinSegs : List (List Char) → List Char
  | [] => []
  | [seg] => seg
  | seg :: rest => seg ++ '/' :: joinSegs rest

/-- Modelled from the spec: the Folder Grouping contract of §4.3 —
truncate the directory's path-segment list to `min(depth, segmentCount)`
segments and join them back into a path. No such computation exists in
the source (`generateFolderNodes` keys containers by the full directory
and no grouping depth exists); this definition only serves to compare
the spec's claimed container key with the code's. -/
def specFolderKey (directory : String) (depth : Nat) : String :=
  let segments := splitSegs directory.data
  String.mk (joinSegs (segments.take (min depth segments.length)))

/-- A node nested four directories deep. -/
def nodeDeep : Node :=
  { id := "src/a/b/c/f.py", label := "f.py", directory := "src/a/b/c",
    extension := "py", nodeType := "python", important := false, hidden := false }

/-! ## Highlight/Traversal — `highlightNode`

```js
function highlightNode(nodeId) {
    state.cy.elements().removeClass('highlighted connected dimmed');
    const node = state.cy.getElementById(nodeId);
    const neighborhood = node.neighborhood();
    const connectedNodes = neighborhood.nodes();
    state.cy.elements().addClass('dimmed');
    node.removeClass('dimmed').addClass('highlighted');
    connectedNodes.removeClass('dimmed').addClass('connected');
    node.outgoers('edge').removeClass('dimmed').addClass('highlighted');
    node.outgoers('node').removeClass('dimmed').addClass('connected');
    ...
    state.selectedNode = nodeId;
}
```
-/

/-- Node classes after a highlight pass, as id lists. -/
structure HighlightState where
  highlighted : List String
  connected : List String
  dimmed : List String
deriving DecidableEq, Repr

/-- The nodes adjacent to `sel` through any edge (cytoscape
`neighborhood().nodes()`). -/
def cyNeighborhoodNodes (edges : List Edge) (sel : String) : List String :=
  edges.foldl
    (fun acc e =>
      if e.source = sel then acc ++ [e.target]
      else if e.target = sel then acc ++ [e.source]
      else acc) []

/-- The targets of the edges leaving `sel` (cytoscape
`outgoers('node')`): one hop only. -/
def cyOutgoerNodes (edges : List Edge) (sel : String) : List String :=
  edges.foldl (fun acc e => if e.source = sel then acc ++ [e.target] else acc) []

/-- `highlightNode`: the class mutations applied in source order to the
node set. -/
def highlightNode (allNodes : List String) (edges : List Edge) (sel : String) :
    HighlightState :=
  let s1 : HighlightState := { highlighted := [], connected := [], dimmed := allNodes }
  let s2 : HighlightState :=
    { s1 with
      dimmed := s1.dimmed.filter (fun x => decide (x ≠ sel)),
      highlighted := s1.highlighted ++ [sel] }
  let conn := cyNeighborhoodNodes edges sel
  let s3 : HighlightState :=
    { s2 with
      dimmed := s2.dimmed.filter (fun x => decide (x ∉ conn)),
      connected := s2.connected ++ conn }
  let outs := cyOutgoerNodes edges sel
  { s3 with
    dimmed := s3.dimmed.filter (fun x => decide (x ∉ outs)),
    connected := s3.connected ++ outs }

/-! ## Reconciler — `reloadMainGraph`

```js
async function reloadMainGraph() {
    try {
        state.graph = await api.getGraph(false);
        state.fullGraph = await api.getGraph(true);
        state.cy.elements().remove();
        ... state.cy.add(elements.nodes); state.cy.add(elements.edges); ...
        const layout = state.cy.layout({ name: 'dagre', ... });
        ... layout.run(); ...
    } catch (error) { console.error('Failed to reload graph:', error); }
}
```
Two aspects are modelled separately: the Graph Store writes with their
failure paths (`reloadMainGraphStore`), and the render-target element
replacement with the fresh dagre layout treated as an opaque coordinate
assignment (`reloadMainGraphRender`). -/

/-- The Graph Store slice touched by a reload: `state.graph` and
`state.fullGraph`. -/
structure StoreState where
  graph : Graph
  fullGraph : Graph
deriving DecidableEq, Repr

/-- The store writes of `reloadMainGraph`: the first fetch's result is
assigned to `state.graph` before the second fetch is awaited; a thrown
fetch jumps to the `catch` block, which assigns nothing. -/
def reloadMainGraphStore (st : StoreState) (fetchMain fetchFull : Except Unit Graph) :
    StoreState :=
  match fetchMain with
  | Except.error _ => st
  | Except.ok gMain =>
      let st1 : StoreState := { st with graph := gMain }
      match fetchFull with
      | Except.error _ => st1
      | Except.ok gFull => { st1 with fullGraph := gFull }

/-- A rendered element: node id, its mutable `important` flag and its
render position (the renderer's coordinate, abstracted to one integer). -/
structure CyNodeState where
  id : String
  important : Bool
  position : Int
deriving DecidableEq, Repr

/-- The render-target effect of `reloadMainGraph` once both fetches have
succeeded: `elements().remove()` discards the previous collection
wholesale, every snapshot node is added afresh, and the dagre layout
(opaque, passed as `layout`) assigns every position. -/
def reloadMainGraphRender (_oldElements : List CyNodeState) (newGraph : Graph)
    (layout : String → Int) : List CyNodeState :=
  newGraph.nodes.map
    (fun n => { id := n.id, important := n.important, position := layout n.id })

/-- A plain root-level node `a`. -/
def nodeA : Node :=
  { id := "a", label := "a", directory := "", extension := "py",
    nodeType := "python", important := false, hidden := false }

/-- Concrete snapshot holding the single node `a`. -/
def gKeep : Graph := { nodes := [nodeA], edges := [] }

/-- Concrete empty snapshot. -/
def gEmpty : Graph := { nodes := [], edges := [] }

/-! ## Flag toggles — `toggleImportant`, `toggleHidden`

```js
async function toggleImportant() {
    if (!state.selectedNode) return;
    const isCurrentlyImportant = state.importantNodes.has(state.selectedNode);
    const newImportance = !isCurrentlyImportant;
    try {
        await api.setImportant(state.selectedNode, newImportance);
        if (newImportance) { state.importantNodes.add(state.selectedNode); }
        else { state.importantNodes.delete(state.selectedNode); }
        const node = state.cy.getElementById(state.selectedNode);
        node.data('important', newImportance);
        ...
    } catch (error) { console.error('Failed to update importance:', error); }
}
```
(`toggleHidden` has the same shape over `state.hiddenNodes`). The
external confirmation is awaited **before** any local mutation, so a
rejection leaves the flag state untouched. -/

/-- The local flag state: the important set, the hidden set, and the
per-node `important` data on the rendered elements. -/
structure FlagState where
  importantNodes : List String
  hiddenNodes : List String
  nodeImportantData : List (String × Bool)
deriving DecidableEq, Repr

/-- `toggleImportant`: `api` is the external confirmation call's outcome
per `(path, important)` argument pair. -/
def toggleImportant (selectedNode : Option String)
    (api : String → Bool → Except Unit Unit) (st : FlagState) : FlagState :=
  match selectedNode with
  | none => st
  | some sel =>
      let isCurrentlyImportant : Bool := decide (sel ∈ st.importantNodes)
      let newImportance := !isCurrentlyImportant
      match api sel newImportance with
      | Except.error _ => st
      | Except.ok _ =>
          { st with
            importantNodes :=
              if newImportance then st.importantNodes ++ [sel]
              else st.importantNodes.filter (fun x => decide (x ≠ sel)),
            nodeImportantData := setKey st.nodeImportantData sel newImportance }

/-- `toggleHidden`: same shape over the hidden set. -/
def toggleHidden (selectedNode : Option String)
    (api : String → Bool → Except Unit Unit) (st : FlagState) : FlagState :=
  match selectedNode with
  | none => st
  | some sel =>
      let isCurrentlyHidden : Bool := decide (sel ∈ st.hiddenNodes)
      let newHidden := !isCurrentlyHidden
      match api sel newHidden with
      | Except.error _ => st
      | Except.ok _ =>
          { st with
            hiddenNodes :=
              if newHidden then st.hiddenNodes ++ [sel]
              else st.hiddenNodes.filter (fun x => decide (x ≠ sel)) }

/-- An external flag store whose confirmation always fails. -/
def apiAlwaysFails : String → Bool → Except Unit Unit := fun _ _ => Except.error ()

/-! ## Change-notification handler — `connectWebSocket`

```js
state.websocket.onmessage = async (event) => {
    try {
        const data = JSON.parse(event.data);
        if (data.type === 'graph_updated') {
            console.log('[WebSocket] Graph updated, refreshing...');
            await reloadMainGraph();
        }
    } catch (e) { console.warn('[WebSocket] Failed to parse message:', e); }
};
```
Each `graph_updated` message immediately awaits a full reload; there is
no pending counter and no user apply action anywhere in the handler. -/

/-- An incoming WebSocket message: either parsed JSON carrying its `type`
field, or a payload on which `JSON.parse` throws (caught, ignored). -/
inductive WsMessage where
  | parsed (msgType : String)
  | malformed
deriving DecidableEq, Repr

/-- Whether a message is a `graph_updated` notification. -/
def isGraphUpdated (m : WsMessage) : Bool :=
  match m with
  | WsMessage.parsed t => t = "graph_updated"
  | WsMessage.malformed => false

/-- Number of `reloadMainGraph` calls (reconciliation passes) the
`onmessage` handler performs over a message stream. -/
def reloadsTriggered (messages : List WsMessage) : Nat :=
  messages.foldl
    (fun n m =>
      match m with
      | WsMessage.parsed t => if t = "graph_updated" then n + 1 else n
      | WsMessage.malformed => n) 0

/-! ## Theorems -/

theorem getKey?_setKey {α : Type} (m : List (String × α)) (k k' : String) (v : α) :
    getKey? (setKey m k v) k' = if k' = k then some v else getKey? m k' := by
  induction m with
  | nil =>
      by_cases h : k' = k
      · subst h; simp [setKey, getKey?]
      · simp [setKey, getKey?, h, Ne.symm h]
  | cons p rest ih =>
      obtain ⟨a, b⟩ := p
      by_cases hak : a = k
      · subst hak
        by_cases h : k' = a
        · subst h; simp [setKey, getKey?]
        · simp [setKey, getKey?, h, Ne.symm h]
      · by_cases h : a = k'
        · subst h
          simp [setKey, getKey?, hak, fun hh : a = k => hak hh]
        · simp [setKey, getKey?, hak, h, ih]

theorem getKey?_isSome_iff {α : Type} (m : List (String × α)) (k : String) :
    (getKey? m k).isSome ↔ ∃ v, (k, v) ∈ m := by
  induction m with
  | nil => simp [getKey?]
  | cons p rest ih =>
      obtain ⟨a, b⟩ := p
      by_cases h : a = k
      · subst h
        simp [getKey?]
      · simp only [getKey?, if_neg h, ih, List.mem_cons, Prod.mk.injEq]
        constructor
        · rintro ⟨v, hv⟩; exact ⟨v, Or.inr hv⟩
        · rintro ⟨v, ⟨hk, _⟩ | hv⟩
          · exact absurd hk.symm h
          · exact ⟨v, hv⟩

theorem mem_of_getKey?_eq_some {α : Type} {m : List (String × α)} {k : String} {v : α}
    (h : getKey? m k = some v) : (k, v) ∈ m := by
  induction m with
  | nil => simp [getKey?] at h
  | cons p rest ih =>
      obtain ⟨a, b⟩ := p
      by_cases hak : a = k
      · subst hak
        rw [getKey?, if_pos rfl] at h
        cases h
        exact List.mem_cons_self _ _
      · rw [getKey?, if_neg hak] at h
        exact List.mem_cons_of_mem _ (ih h)

theorem edgeBetween_symm {g : Graph} {u v : String} (h : edgeBetween g u v) :
    edgeBetween g v u := by
  obtain ⟨e, he, h1 | h2⟩ := h
  · exact ⟨e, he, Or.inr h1⟩
  · exact ⟨e, he, Or.inl h2⟩

theorem getKey?_initAdj (nodes : List Node) (k : String) :
    getKey? (initAdj nodes) k =
      if k ∈ nodes.map Node.id then some [] else none := by
  suffices h : ∀ m : AdjMap,
      getKey? (nodes.foldl (fun m n => setKey m n.id ([] : List String)) m) k =
        if k ∈ nodes.map Node.id then some [] else getKey? m k by
    simpa [initAdj] using h []
  induction nodes with
  | nil => intro m; simp
  | cons n rest ih =>
      intro m
      by_cases hmem : k ∈ rest.map Node.id
      · simp [List.foldl_cons, ih, hmem]
      · by_cases hk : k = n.id
        · subst hk
          simp [List.foldl_cons, ih, hmem, getKey?_setKey]
        · simp [List.foldl_cons, ih, hmem, getKey?_setKey, hk]

theorem lookupAdj_initAdj (nodes : List Node) (k : String) :
    lookupAdj (initAdj nodes) k = [] := by
  rw [lookupAdj, getKey?_initAdj]
  by_cases h : k ∈ nodes.map Node.id <;> simp [h]

theorem getKey?_isSome_pushAdj (m : AdjMap) (k x u : String) :
    (getKey? (pushAdj m k x) u).isSome = (getKey? m u).isSome := by
  rw [pushAdj]
  cases h : getKey? m k with
  | none => rfl
  | some l =>
      rw [getKey?_setKey]
      by_cases hu : u = k
      · subst hu; simp [h]
      · simp [hu]

theorem mem_lookupAdj_pushAdj (m : AdjMap) (k x u v : String) :
    v ∈ lookupAdj (pushAdj m k x) u ↔
      v ∈ lookupAdj m u ∨ (u = k ∧ (getKey? m k).isSome ∧ v = x) := by
  rw [pushAdj]
  cases h : getKey? m k with
  | none => simp [h]
  | some l =>
      rw [lookupAdj, getKey?_setKey]
      by_cases hu : u = k
      · subst hu
        simp [lookupAdj, h, or_comm]
      · simp [hu, lookupAdj]

theorem getKey?_isSome_addEdge (m : AdjMap) (e : Edge) (u : String) :
    (getKey? (addEdgeToAdj m e) u).isSome = (getKey? m u).isSome := by
  rw [addEdgeToAdj, getKey?_isSome_pushAdj, getKey?_isSome_pushAdj]

theorem mem_lookupAdj_addEdge (m : AdjMap) (e : Edge) (u v : String) :
    v ∈ lookupAdj (addEdgeToAdj m e) u ↔
      v ∈ lookupAdj m u ∨
        (u = e.source ∧ (getKey? m e.source).isSome ∧ v = e.target) ∨
        (u = e.target ∧ (getKey? m e.target).isSome ∧ v = e.source) := by
  rw [addEdgeToAdj, mem_lookupAdj_pushAdj, mem_lookupAdj_pushAdj,
    getKey?_isSome_pushAdj]
  tauto

/-- Membership in the built adjacency index is exactly the undirected edge
relation, provided every edge endpoint appears in the node list. -/
theorem mem_buildAdjacencyList {g : Graph} (hwf : g.WF) (u v : String) :
    v ∈ lookupAdj (buildAdjacencyList g) u ↔ edgeBetween g u v := by
  have keys : ∀ el : List Edge, (∀ e ∈ el, e ∈ g.edges) → ∀ m : AdjMap,
      (∀ k, (getKey? m k).isSome ↔ k ∈ g.ids) →
      ∀ u v, v ∈ lookupAdj (el.foldl addEdgeToAdj m) u ↔
        v ∈ lookupAdj m u ∨
          ∃ e ∈ el, (e.source = u ∧ e.target = v) ∨ (e.source = v ∧ e.target = u) := by
    intro el
    induction el with
    | nil => intro _ m _ u v; simp
    | cons e rest ih =>
        intro hsub m hkeys u v
        have hsrc : (getKey? m e.source).isSome := by
          rw [hkeys]
          exact (hwf e (hsub e (List.mem_cons_self _ _))).1
        have htgt : (getKey? m e.target).isSome := by
          rw [hkeys]
          exact (hwf e (hsub e (List.mem_cons_self _ _))).2
        rw [List.foldl_cons,
          ih (fun e' he' => hsub e' (List.mem_cons_of_mem _ he'))
            (addEdgeToAdj m e)
            (fun k => by rw [getKey?_isSome_addEdge]; exact hkeys k),
          mem_lookupAdj_addEdge]
        simp only [hsrc, htgt, true_and, List.mem_cons]
        constructor
        · rintro ((h | ⟨h1, h2⟩ | ⟨h1, h2⟩) | ⟨e', he', h⟩)
          · exact Or.inl h
          · exact Or.inr ⟨e, Or.inl rfl, Or.inl ⟨h1.symm, h2.symm⟩⟩
          · exact Or.inr ⟨e, Or.inl rfl, Or.inr ⟨h2.symm, h1.symm⟩⟩
          · exact Or.inr ⟨e', Or.inr he', h⟩
        · rintro (h | ⟨e', rfl | he', h⟩)
          · exact Or.inl (Or.inl h)
          · rcases h with ⟨h1, h2⟩ | ⟨h1, h2⟩
            · exact Or.inl (Or.inr (Or.inl ⟨h1.symm, h2.symm⟩))
            · exact Or.inl (Or.inr (Or.inr ⟨h2.symm, h1.symm⟩))
          · exact Or.inr ⟨e', he', h⟩
  have hinit : ∀ k, (getKey? (initAdj g.nodes) k).isSome ↔ k ∈ g.ids := by
    intro k
    rw [getKey?_initAdj, Graph.ids]
    by_cases h : k ∈ g.nodes.map Node.id <;> simp [h]
  rw [buildAdjacencyList, keys g.edges (fun _ he => he) (initAdj g.nodes) hinit]
  simp [lookupAdj_initAdj, edgeBetween]

/-- `ReachOutside` is exactly the existence of a path presented as its
list of intermediate vertices. -/
theorem reachOutside_iff_chain (adj : AdjMap) (S : List String) (endId u : String) :
    ReachOutside adj S endId u ↔
      ∃ mids : List String,
        List.Chain (fun x y => y ∈ lookupAdj adj x) u (mids ++ [endId]) ∧
        ∀ m ∈ mids, m ∉ S := by
  constructor
  · intro h
    induction h with
    | base hadj =>
        refine ⟨[], ?_, by simp⟩
        simp only [List.nil_append, List.chain_cons]
        exact ⟨hadj, List.Chain.nil⟩
    | step hadj hS _ ih =>
        obtain ⟨mids, hchain, hmids⟩ := ih
        refine ⟨_ :: mids, List.Chain.cons hadj hchain, ?_⟩
        intro m hm
        rcases List.mem_cons.1 hm with rfl | hm
        · exact hS
        · exact hmids m hm
  · rintro ⟨mids, hchain, hmids⟩
    induction mids generalizing u with
    | nil =>
        rcases hchain with _ | ⟨hadj, _⟩
        exact ReachOutside.base hadj
    | cons v mids ih =>
        rcases hchain with _ | ⟨hadj, htail⟩
        exact ReachOutside.step hadj (hmids v (List.mem_cons_self _ _))
          (ih v htail (fun m hm => hmids m (List.mem_cons_of_mem _ hm)))

/-- The loop with an empty queue answers `false` whatever the fuel. -/
theorem bfsLoop_nil (adj : AdjMap) (endId : String) (visible : List String)
    (fuel : Nat) (visited : List String) :
    bfsLoop adj endId visible fuel visited [] = false := by
  cases fuel <;> rfl

theorem sum_filter_not_visited (adj : AdjMap) (visited : List String) (c : String) :
    ∀ l : List String, l.Nodup → c ∈ l → c ∉ visited →
      ((l.filter (fun v => decide (v ∉ visited))).map
        (fun v => 1 + (lookupAdj adj v).length)).sum =
      1 + (lookupAdj adj c).length +
        ((l.filter (fun v => decide (v ∉ c :: visited))).map
          (fun v => 1 + (lookupAdj adj v).length)).sum := by
  intro l
  induction l with
  | nil => intro _ hc; cases hc
  | cons a l ih =>
      intro hnodup hc hcv
      have hnd := List.nodup_cons.1 hnodup
      rcases List.mem_cons.1 hc with rfl | hcl
      · have hagree :
            l.filter (fun v => decide (v ∉ visited)) =
              l.filter (fun v => decide (v ∉ c :: visited)) := by
          apply List.filter_congr
          intro v hv
          have hvc : v ≠ c := fun h => hnd.1 (h ▸ hv)
          simp [List.mem_cons, hvc]
        rw [List.filter_cons_of_pos (by simpa using hcv),
          List.filter_cons_of_neg (by simp),
          List.map_cons, List.sum_cons, hagree]
      · have hac : a ≠ c := fun h => hnd.1 (h ▸ hcl)
        by_cases hav : a ∈ visited
        · rw [List.filter_cons_of_neg (by simpa using hav),
            List.filter_cons_of_neg (by simp [List.mem_cons]; exact fun _ => hav)]
          exact ih hnd.2 hcl hcv
        · rw [List.filter_cons_of_pos (by simpa using hav),
            List.filter_cons_of_pos (by simp [List.mem_cons]; exact ⟨hac, hav⟩),
            List.map_cons, List.sum_cons, List.map_cons, List.sum_cons,
            ih hnd.2 hcl hcv]
          ring

theorem remWeight_visit (adj : AdjMap) (visited U : List String) (c : String)
    (hc : c ∈ U) (hcv : c ∉ visited) :
    remWeight adj visited U =
      1 + (lookupAdj adj c).length + remWeight adj (c :: visited) U := by
  exact sum_filter_not_visited adj visited c U.dedup (List.nodup_dedup U)
    (List.mem_dedup.2 hc) hcv

/-- Soundness of the worklist loop: a `true` answer exhibits a queue
element from which `endId` is reachable outside the visible set. -/
theorem bfsLoop_sound (adj : AdjMap) (endId : String) (visible : List String) :
    ∀ (fuel : Nat) (visited queue : List String),
      bfsLoop adj endId visible fuel visited queue = true →
      ∃ u ∈ queue, ReachOutside adj visible endId u := by
  intro fuel
  induction fuel with
  | zero => intro visited queue h; simp [bfsLoop] at h
  | succ fuel ih =>
      intro visited queue h
      match queue with
      | [] => simp [bfsLoop] at h
      | current :: queue =>
          rw [bfsLoop] at h
          by_cases hv : current ∈ visited
          · rw [if_pos hv] at h
            obtain ⟨u, hu, hr⟩ := ih visited queue h
            exact ⟨u, List.mem_cons_of_mem _ hu, hr⟩
          · rw [if_neg hv] at h
            by_cases hend : endId ∈ lookupAdj adj current
            · exact ⟨current, List.mem_cons_self _ _, ReachOutside.base hend⟩
            · simp only [hend, if_neg, if_false] at h
              obtain ⟨u, hu, hr⟩ := ih _ _ h
              rcases List.mem_append.1 hu with hu | hu
              · exact ⟨u, List.mem_cons_of_mem _ hu, hr⟩
              · have hmem := List.mem_filter.1 hu
                have hcond := hmem.2
                simp only [Bool.and_eq_true, decide_eq_true_eq] at hcond
                exact ⟨current, List.mem_cons_self _ _,
                  ReachOutside.step hmem.1 hcond.1 hr⟩

/-- The visited-set guard makes the loop stabilise: past the measure the
answer no longer depends on the fuel. -/
theorem bfsLoop_stable (adj : AdjMap) (endId : String) (visible U : List String)
    (hU : ∀ u x, x ∈ lookupAdj adj u → x ∈ U) :
    ∀ (fuel : Nat) (visited queue : List String),
      bfsMeasure adj visited queue U ≤ fuel →
      (∀ x ∈ queue, x ∈ U) →
      ∀ fuel', fuel ≤ fuel' →
      bfsLoop adj endId visible fuel' visited queue =
        bfsLoop adj endId visible fuel visited queue := by
  intro fuel
  induction fuel with
  | zero =>
      intro visited queue hm _ fuel' _
      have hq : queue = [] := by
        have : queue.length = 0 := by
          have := hm
          rw [bfsMeasure] at this
          omega
        exact List.length_eq_zero.1 this
      subst hq
      rw [bfsLoop_nil, bfsLoop_nil]
  | succ fuel ih =>
      intro visited queue hm hq fuel' hle
      match queue with
      | [] => rw [bfsLoop_nil, bfsLoop_nil]
      | current :: queue =>
          obtain ⟨f', rfl⟩ := Nat.exists_eq_add_of_le hle
          rw [show fuel + 1 + f' = (fuel + f') + 1 by omega]
          rw [bfsLoop, bfsLoop]
          have hcU : current ∈ U := hq current (List.mem_cons_self _ _)
          by_cases hv : current ∈ visited
          · rw [if_pos hv, if_pos hv]
            apply ih visited queue ?_ (fun x hx => hq x (List.mem_cons_of_mem _ hx))
              (fuel + f') (by omega)
            rw [bfsMeasure] at hm ⊢
            simp only [List.length_cons] at hm
            omega
          · rw [if_neg hv, if_neg hv]
            by_cases hend : endId ∈ lookupAdj adj current
            · simp only [hend, if_true]
            · simp only [hend, if_false]
              have hrw := remWeight_visit adj visited U current hcU hv
              apply ih (current :: visited) _ ?_ ?_ (fuel + f') (by omega)
              · rw [bfsMeasure] at hm ⊢
                simp only [List.length_cons, List.length_append] at hm ⊢
                have hfl : ((lookupAdj adj current).filter
                    (fun x => decide (x ∉ visible) &&
                      decide (x ∉ current :: visited))).length ≤
                    (lookupAdj adj current).length :=
                  List.length_filter_le _ _
                omega
              · intro x hx
                rcases List.mem_append.1 hx with hx | hx
                · exact hq x (List.mem_cons_of_mem _ hx)
                · exact hU current x (List.mem_filter.1 hx).1

/-- From any vertex of `visited ∪ queue` that reaches `endId` outside the
visible set, some not-yet-visited queue vertex also does, provided no
visited vertex touches `endId` and the visited set is closed into
`visited ∪ queue` on non-visible neighbours. -/
theorem reach_escape (adj : AdjMap) (visible : List String) (endId : String)
    (visited queue : List String)
    (h1 : ∀ v ∈ visited, endId ∉ lookupAdj adj v)
    (h2 : ∀ v ∈ visited, ∀ w ∈ lookupAdj adj v, w ∉ visible → w ∈ visited ∨ w ∈ queue) :
    ∀ u, ReachOutside adj visible endId u → u ∈ visited ∨ u ∈ queue →
      ∃ w ∈ queue, w ∉ visited ∧ ReachOutside adj visible endId w := by
  intro u hr
  induction hr with
  | @base w hadj =>
      intro hu
      by_cases hv : w ∈ visited
      · exact absurd hadj (h1 _ hv)
      · rcases hu with hu | hu
        · exact absurd hu hv
        · exact ⟨w, hu, hv, ReachOutside.base hadj⟩
  | @step w v hadj hS hr' ih =>
      intro hu
      by_cases hv : w ∈ visited
      · exact ih (h2 _ hv _ hadj hS)
      · rcases hu with hu | hu
        · exact absurd hu hv
        · exact ⟨w, hu, hv, ReachOutside.step hadj hS hr'⟩

/-- Completeness of the worklist loop: with enough fuel and the invariants
of the search, a reachable pair is found. -/
theorem bfsLoop_complete (adj : AdjMap) (endId : String) (visible U : List String)
    (hU : ∀ u x, x ∈ lookupAdj adj u → x ∈ U) :
    ∀ (fuel : Nat) (visited queue : List String),
      bfsMeasure adj visited queue U ≤ fuel →
      (∀ x ∈ queue, x ∈ U) →
      (∀ v ∈ visited, endId ∉ lookupAdj adj v) →
      (∀ v ∈ visited, ∀ w ∈ lookupAdj adj v, w ∉ visible → w ∈ visited ∨ w ∈ queue) →
      (∃ u ∈ queue, u ∉ visited ∧ ReachOutside adj visible endId u) →
      bfsLoop adj endId visible fuel visited queue = true := by
  intro fuel
  induction fuel with
  | zero =>
      intro visited queue hm _ _ _ hw
      obtain ⟨u, hu, -, -⟩ := hw
      rw [bfsMeasure] at hm
      have := List.length_pos.2 (List.ne_nil_of_mem hu)
      omega
  | succ fuel ih =>
      intro visited queue hm hq h1 h2 hw
      match queue with
      | [] =>
          obtain ⟨u, hu, -, -⟩ := hw
          cases hu
      | current :: queue =>
          rw [bfsLoop]
          have hcU : current ∈ U := hq current (List.mem_cons_self _ _)
          by_cases hv : current ∈ visited
          · rw [if_pos hv]
            apply ih visited queue ?_ (fun x hx => hq x (List.mem_cons_of_mem _ hx)) h1 ?_ ?_
            · rw [bfsMeasure] at hm ⊢
              simp only [List.length_cons] at hm
              omega
            · intro v hvv w hww hwS
              rcases h2 v hvv w hww hwS with h | h
              · exact Or.inl h
              · rcases List.mem_cons.1 h with rfl | h
                · exact Or.inl hv
                · exact Or.inr h
            · obtain ⟨u, hu, huv, hur⟩ := hw
              rcases List.mem_cons.1 hu with rfl | hu
              · exact absurd hv huv
              · exact ⟨u, hu, huv, hur⟩
          · rw [if_neg hv]
            by_cases hend : endId ∈ lookupAdj adj current
            · simp only [hend, if_true]
            · simp only [hend, if_false]
              have hrw := remWeight_visit adj visited U current hcU hv
              have h1' : ∀ v ∈ current :: visited, endId ∉ lookupAdj adj v := by
                intro v hvv
                rcases List.mem_cons.1 hvv with rfl | hvv
                · exact hend
                · exact h1 v hvv
              have h2' : ∀ v ∈ current :: visited, ∀ w ∈ lookupAdj adj v,
                  w ∉ visible → w ∈ current :: visited ∨
                    w ∈ queue ++ (lookupAdj adj current).filter
                      (fun x => decide (x ∉ visible) && decide (x ∉ current :: visited)) := by
                intro v hvv w hww hwS
                rcases List.mem_cons.1 hvv with rfl | hvv
                · by_cases hwcv : w ∈ v :: visited
                  · exact Or.inl hwcv
                  · refine Or.inr (List.mem_append.2 (Or.inr ?_))
                    exact List.mem_filter.2 ⟨hww, by
                      simp only [Bool.and_eq_true, decide_eq_true_eq]
                      exact ⟨hwS, hwcv⟩⟩
                · rcases h2 v hvv w hww hwS with h | h
                  · exact Or.inl (List.mem_cons_of_mem _ h)
                  · rcases List.mem_cons.1 h with rfl | h
                    · exact Or.inl (List.mem_cons_self _ _)
                    · exact Or.inr (List.mem_append.2 (Or.inl h))
              apply ih (current :: visited) _ ?_ ?_ h1' h2' ?_
              · rw [bfsMeasure] at hm ⊢
                simp only [List.length_cons, List.length_append] at hm ⊢
                have hfl : ((lookupAdj adj current).filter
                    (fun x => decide (x ∉ visible) &&
                      decide (x ∉ current :: visited))).length ≤
                    (lookupAdj adj current).length :=
                  List.length_filter_le _ _
                omega
              · intro x hx
                rcases List.mem_append.1 hx with hx | hx
                · exact hq x (List.mem_cons_of_mem _ hx)
                · exact hU current x (List.mem_filter.1 hx).1
              · obtain ⟨u, hu, huv, hur⟩ := hw
                by_cases huc : u = current
                · subst huc
                  exact reach_escape adj visible endId (u :: visited) _ h1' h2' u hur
                    (Or.inl (List.mem_cons_self _ _))
                · rcases List.mem_cons.1 hu with rfl | hu
                  · exact absurd rfl huc
                  · refine ⟨u, List.mem_append.2 (Or.inl hu), ?_, hur⟩
                    intro hmem
                    rcases List.mem_cons.1 hmem with rfl | hmem
                    · exact huc rfl
                    · exact huv hmem

theorem mem_adjValues {adj : AdjMap} {u x : String} (hx : x ∈ lookupAdj adj u) :
    x ∈ adjValues adj := by
  rw [lookupAdj] at hx
  cases h : getKey? adj u with
  | none => rw [h] at hx; cases hx
  | some l =>
      rw [h] at hx
      simp only [Option.getD_some] at hx
      exact List.mem_flatten.2
        ⟨l, List.mem_map.2 ⟨(u, l), mem_of_getKey?_eq_some h, rfl⟩, hx⟩

theorem lookupAdj_length_le (adj : AdjMap) (u : String) :
    (lookupAdj adj u).length ≤ totalAdjLen adj := by
  rw [lookupAdj]
  cases h : getKey? adj u with
  | none => simp [totalAdjLen]
  | some l =>
      simp only [Option.getD_some]
      have hmem : l.length ∈ adj.map (fun p => p.snd.length) :=
        List.mem_map.2 ⟨(u, l), mem_of_getKey?_eq_some h, rfl⟩
      exact List.single_le_sum (fun x _ => Nat.zero_le x) _ hmem

/-- The initial loop state's measure is below the chosen fuel. -/
theorem bfsMeasure_start_le (adj : AdjMap) (startId : String) :
    bfsMeasure adj [] [startId] (startId :: adjValues adj) ≤ bfsFuel adj := by
  rw [bfsMeasure, bfsFuel, remWeight]
  have hfilter : (startId :: adjValues adj).dedup.filter
      (fun v => decide (v ∉ ([] : List String))) = (startId :: adjValues adj).dedup := by
    apply List.filter_eq_self.2
    intro a _
    simp
  rw [hfilter]
  have hbound : ∀ x ∈ (startId :: adjValues adj).dedup.map
      (fun v => 1 + (lookupAdj adj v).length), x ≤ 1 + totalAdjLen adj := by
    intro x hx
    obtain ⟨v, -, rfl⟩ := List.mem_map.1 hx
    exact Nat.add_le_add_left (lookupAdj_length_le adj v) 1
  have hsum := List.sum_le_card_nsmul _ _ hbound
  simp only [List.length_map, smul_eq_mul] at hsum
  have hlen : (startId :: adjValues adj).dedup.length ≤ 1 + (adjValues adj).length := by
    have := (List.dedup_sublist (startId :: adjValues adj)).length_le
    simp only [List.length_cons] at this
    omega
  have hmul : (startId :: adjValues adj).dedup.length * (1 + totalAdjLen adj) ≤
      (1 + (adjValues adj).length) * (1 + totalAdjLen adj) :=
    Nat.mul_le_mul hlen (Nat.le_refl _)
  simp only [List.length_cons, List.length_nil]
  omega

/-- The queue of the initial loop state lies inside the chosen universe. -/
theorem start_queue_subset (adj : AdjMap) (startId : String) :
    ∀ x ∈ [startId], x ∈ startId :: adjValues adj := by
  intro x hx
  rcases List.mem_cons.1 hx with rfl | hx
  · exact List.mem_cons_self _ _
  · cases hx

/-- Core characterisation: the BFS result is path existence outside the
visible set, together with falsity on equal endpoints. -/
theorem hasIndirectPath_iff_reach (adj : AdjMap) (a b : String) (S : List String) :
    hasIndirectPath a b S adj = true ↔ (a ≠ b ∧ ReachOutside adj S b a) := by
  rw [hasIndirectPath]
  by_cases hab : a = b
  · simp [hab]
  · rw [if_neg hab]
    constructor
    · intro h
      obtain ⟨u, hu, hr⟩ := bfsLoop_sound adj b S _ _ _ h
      rcases List.mem_cons.1 hu with rfl | hu
      · exact ⟨hab, hr⟩
      · cases hu
    · rintro ⟨-, hr⟩
      exact bfsLoop_complete adj b S (a :: adjValues adj)
        (fun u x hx => List.mem_cons_of_mem _ (mem_adjValues hx))
        (bfsFuel adj) [] [a]
        (bfsMeasure_start_le adj a)
        (start_queue_subset adj a)
        (fun v hv => by cases hv) (fun v hv => by cases hv)
        ⟨a, List.mem_cons_self _ _, List.not_mem_nil a, hr⟩

/-- Under well-formedness, reachability through the built adjacency index
is path existence over the graph's own edges (either direction). -/
theorem reachOutside_build_iff {g : Graph} (hwf : g.WF) (S : List String) (b a : String) :
    ReachOutside (buildAdjacencyList g) S b a ↔
      ∃ mids : List String,
        List.Chain (edgeBetween g) a (mids ++ [b]) ∧ ∀ m ∈ mids, m ∉ S := by
  rw [reachOutside_iff_chain]
  constructor
  · rintro ⟨mids, hchain, hmids⟩
    exact ⟨mids, hchain.imp (fun x y hxy => (mem_buildAdjacencyList hwf x y).1 hxy), hmids⟩
  · rintro ⟨mids, hchain, hmids⟩
    exact ⟨mids, hchain.imp (fun x y hxy => (mem_buildAdjacencyList hwf x y).2 hxy), hmids⟩

/-- An undirected path reverses. -/
theorem chain_edgeBetween_reverse {g : Graph} {a b : String} {mids : List String}
    (h : List.Chain (edgeBetween g) a (mids ++ [b])) :
    List.Chain (edgeBetween g) b (mids.reverse ++ [a]) := by
  have h1 : List.Chain' (edgeBetween g) (a :: (mids ++ [b])) := h
  have h2 : List.Chain' (flip (edgeBetween g)) (a :: (mids ++ [b])) :=
    h1.imp (fun x y hxy => edgeBetween_symm hxy)
  have h3 : List.Chain' (edgeBetween g) ((a :: (mids ++ [b])).reverse) :=
    List.chain'_reverse.2 h2
  have hshape : (a :: (mids ++ [b])).reverse = b :: (mids.reverse ++ [a]) := by
    simp
  rw [hshape] at h3
  exact h3

/-! ## Claim theorems — Reachability Engine -/

/-- **C2.** For every full graph (with the Edge invariant that both
endpoints of every edge appear in the node list), every visible-id set
`S` and every pair `(a, b)` with `a, b ∈ S`: the indirect-connectivity
check returns `true` iff some path from `a` to `b` exists in the full
graph whose intermediate vertices all lie outside `S`; and for `a = b`
it returns `false`. -/
theorem hasIndirectPath_correct {g : Graph} (hwf : g.WF) (S : List String)
    (a b : String) (_ha : a ∈ S) (_hb : b ∈ S) :
    (hasIndirectPath a b S (buildAdjacencyList g) = true ↔
      (a ≠ b ∧ ∃ mids : List String,
        List.Chain (edgeBetween g) a (mids ++ [b]) ∧ ∀ m ∈ mids, m ∉ S)) ∧
    hasIndirectPath a a S (buildAdjacencyList g) = false := by
  refine ⟨?_, by simp [hasIndirectPath]⟩
  rw [hasIndirectPath_iff_reach, reachOutside_build_iff hwf]

/-- Witness for C2 at a concrete graph and pair. -/
theorem hasIndirectPath_correct_witness :
    (hasIndirectPath "a" "b" ["a", "b"] (buildAdjacencyList gReach) = true ↔
      ("a" ≠ "b" ∧ ∃ mids : List String,
        List.Chain (edgeBetween gReach) "a" (mids ++ ["b"]) ∧
          ∀ m ∈ mids, m ∉ ["a", "b"])) ∧
    hasIndirectPath "a" "a" ["a", "b"] (buildAdjacencyList gReach) = false :=
  hasIndirectPath_correct (g := gReach) (by decide) ["a", "b"] "a" "b"
    (by decide) (by decide)

/-- **C9.** On every finite full graph — cyclic ones included — the
indirect-connectivity BFS terminates: the visited-set guard bounds the
loop, so past the explicit fuel bound `bfsFuel` the loop's answer never
changes again. -/
theorem hasIndirectPath_terminates (g : Graph) (startId endId : String)
    (visible : List String) (fuel : Nat)
    (hfuel : bfsFuel (buildAdjacencyList g) ≤ fuel) :
    bfsLoop (buildAdjacencyList g) endId visible fuel [] [startId] =
      bfsLoop (buildAdjacencyList g) endId visible
        (bfsFuel (buildAdjacencyList g)) [] [startId] :=
  bfsLoop_stable (buildAdjacencyList g) endId visible
    (startId :: adjValues (buildAdjacencyList g))
    (fun _ _ hx => List.mem_cons_of_mem _ (mem_adjValues hx))
    (bfsFuel (buildAdjacencyList g)) [] [startId]
    (bfsMeasure_start_le (buildAdjacencyList g) startId)
    (start_queue_subset (buildAdjacencyList g) startId)
    fuel hfuel

/-- Witness for C9 on a cyclic graph, with strictly more fuel than the
bound. -/
theorem hasIndirectPath_terminates_witness :
    bfsLoop (buildAdjacencyList gCycle) "c" ["a", "c"]
        (bfsFuel (buildAdjacencyList gCycle) + 7) [] ["a"] =
      bfsLoop (buildAdjacencyList gCycle) "c" ["a", "c"]
        (bfsFuel (buildAdjacencyList gCycle)) [] ["a"] :=
  hasIndirectPath_terminates gCycle "a" "c" ["a", "c"]
    (bfsFuel (buildAdjacencyList gCycle) + 7) (Nat.le_add_right _ 7)

/-- **C10.** On every full graph whose edges' endpoints all appear in the
node list, the adjacency index is symmetric, and consequently the
indirect-connectivity check is symmetric in its endpoints. -/
theorem hasIndirectPath_symm {g : Graph} (hwf : g.WF) :
    (∀ a b, b ∈ lookupAdj (buildAdjacencyList g) a ↔
      a ∈ lookupAdj (buildAdjacencyList g) b) ∧
    ∀ (S : List String) (a b : String),
      hasIndirectPath a b S (buildAdjacencyList g) =
        hasIndirectPath b a S (buildAdjacencyList g) := by
  constructor
  · intro a b
    rw [mem_buildAdjacencyList hwf, mem_buildAdjacencyList hwf]
    exact ⟨edgeBetween_symm, edgeBetween_symm⟩
  · intro S a b
    have key : ∀ x y : String,
        hasIndirectPath x y S (buildAdjacencyList g) = true →
          hasIndirectPath y x S (buildAdjacencyList g) = true := by
      intro x y h
      rw [hasIndirectPath_iff_reach, reachOutside_build_iff hwf] at h
      obtain ⟨hne, mids, hchain, hmids⟩ := h
      rw [hasIndirectPath_iff_reach, reachOutside_build_iff hwf]
      exact ⟨hne.symm, mids.reverse, chain_edgeBetween_reverse hchain,
        fun m hm => hmids m (List.mem_reverse.1 hm)⟩
    rw [Bool.eq_iff_iff]
    exact ⟨key a b, key b a⟩

/-- Witness for C10 at a concrete graph and pair. -/
theorem hasIndirectPath_symm_witness :
    hasIndirectPath "a" "b" ["a", "b"] (buildAdjacencyList gReach) =
      hasIndirectPath "b" "a" ["a", "b"] (buildAdjacencyList gReach) :=
  (hasIndirectPath_symm (g := gReach) (by decide)).2 ["a", "b"] "a" "b"

/-! ### Inferred-edge synthesis -/

theorem mem_directEdgeKeys (cyEdges : List Edge) (k : String) :
    k ∈ directEdgeKeys cyEdges ↔
      ∃ e ∈ cyEdges,
        k = pairKey e.source e.target ∨ k = pairKey e.target e.source := by
  suffices h : ∀ acc : List String,
      k ∈ cyEdges.foldl
        (fun acc e =>
          acc ++ [pairKey e.source e.target, pairKey e.target e.source]) acc ↔
      k ∈ acc ∨ ∃ e ∈ cyEdges,
        k = pairKey e.source e.target ∨ k = pairKey e.target e.source by
    simpa [directEdgeKeys] using h []
  induction cyEdges with
  | nil => intro acc; simp
  | cons e rest ih =>
      intro acc
      rw [List.foldl_cons, ih]
      simp only [List.mem_append, List.mem_cons, List.mem_singleton,
        List.not_mem_nil, or_false]
      constructor
      · rintro ((h | h | h) | ⟨e', he', h⟩)
        · exact Or.inl h
        · exact Or.inr ⟨e, Or.inl rfl, Or.inl h⟩
        · exact Or.inr ⟨e, Or.inl rfl, Or.inr h⟩
        · exact Or.inr ⟨e', Or.inr he', h⟩
      · rintro (h | ⟨e', rfl | he', h⟩)
        · exact Or.inl (Or.inl h)
        · rcases h with h | h
          · exact Or.inl (Or.inr (Or.inl h))
          · exact Or.inl (Or.inr (Or.inr h))
        · exact Or.inr ⟨e', he', h⟩

/-- **C6 (amended).** In every non-`all`, non-`hidden` filter pass: no
inferred edge is synthesized for an unordered pair of visible nodes that
already has a direct edge between them in either direction, and every
synthesized inferred edge joins a pair taken in the visible set's
iteration order with the deterministic id
`indirect-<source>-<target>` built from that pair order (which is the
insertion order of the visible set, not necessarily lexicographic), the
pair being indirectly connected. -/
theorem addIndirectConnections_spec (visibleArray : List String) (cyEdges : List Edge)
    (adj : AdjMap) (ie : IndirectEdge)
    (hmem : ie ∈ addIndirectConnections visibleArray cyEdges adj) :
    ie.id = "indirect-" ++ ie.source ++ "-" ++ ie.target ∧
    (∀ ce ∈ cyEdges,
      ¬((ce.source = ie.source ∧ ce.target = ie.target) ∨
        (ce.source = ie.target ∧ ce.target = ie.source))) ∧
    (ie.source, ie.target) ∈ allPairs visibleArray ∧
    hasIndirectPath ie.source ie.target visibleArray adj = true := by
  rw [addIndirectConnections] at hmem
  obtain ⟨p, hp, hf⟩ := List.mem_filterMap.1 hmem
  by_cases h1 : pairKey p.1 p.2 ∈ directEdgeKeys cyEdges
  · rw [if_pos h1] at hf
    cases hf
  · rw [if_neg h1] at hf
    by_cases h2 : hasIndirectPath p.1 p.2 visibleArray adj = true
    · rw [if_pos h2] at hf
      cases hf
      refine ⟨rfl, ?_, ?_, h2⟩
      · rintro ce hce (⟨hs, ht⟩ | ⟨hs, ht⟩)
        · exact h1 (mem_directEdgeKeys cyEdges _ |>.2
            ⟨ce, hce, Or.inl (by rw [hs, ht])⟩)
        · exact h1 (mem_directEdgeKeys cyEdges _ |>.2
            ⟨ce, hce, Or.inr (by rw [hs, ht])⟩)
      · simpa using hp
    · rw [if_neg h2] at hf
      cases hf

/-- Witness for C6's amended theorem at a concrete run: with iteration
order `["b", "a"]`, empty rendered edge set and the graph `gReach`, the
pair is synthesized. -/
theorem addIndirectConnections_spec_witness :
    (({ id := "indirect-b-a", source := "b", target := "a" } : IndirectEdge)).id =
      "indirect-" ++ "b" ++ "-" ++ "a" ∧
    ("b", "a") ∈ allPairs ["b", "a"] ∧
    hasIndirectPath "b" "a" ["b", "a"] (buildAdjacencyList gReach) = true := by
  have h := addIndirectConnections_spec ["b", "a"] [] (buildAdjacencyList gReach)
    { id := "indirect-b-a", source := "b", target := "a" } (by decide)
  exact ⟨h.1, h.2.2.1, h.2.2.2⟩

/-- Counterexample for C6 as stated: with visible-set iteration order
`["b", "a"]` the synthesized edge has id `indirect-b-a`, although
`"a" < "b"` lexicographically, so the id is not `indirect-<a>-<b>` with
`a < b`. -/
theorem addIndirectConnections_not_lexicographic :
    addIndirectConnections ["b", "a"] [] (buildAdjacencyList gReach) =
      [{ id := "indirect-b-a", source := "b", target := "a" }] ∧
    "a" < "b" ∧
    ("indirect-b-a" : String) ≠ "indirect-a-b" := by
  exact ⟨by decide, String.lt_iff_toList_lt.mpr (by decide), by decide⟩

/-! ### Folder grouping -/

theorem generateFolderNodes_fold (nodes : List Node) :
    ∀ acc : List (String × FolderNode),
      (∀ q ∈ acc, q.2 = { id := "folder:" ++ q.1, label := q.1 }) →
      ∀ p : String × FolderNode,
        (p ∈ nodes.foldl
            (fun folders n =>
              if n.directory = "" then folders
              else if (getKey? folders n.directory).isSome then folders
              else folders ++
                [(n.directory,
                  ({ id := "folder:" ++ n.directory,
                     label := n.directory } : FolderNode))])
            acc ↔
          p ∈ acc ∨ ∃ n ∈ nodes, n.directory ≠ "" ∧
            p = (n.directory,
              { id := "folder:" ++ n.directory, label := n.directory })) := by
  induction nodes with
  | nil => intro acc _ p; simp
  | cons n rest ih =>
      intro acc hcanon p
      rw [List.foldl_cons]
      by_cases hdir : n.directory = ""
      · rw [if_pos hdir, ih acc hcanon p]
        constructor
        · rintro (h | ⟨n', hn', h1, h2⟩)
          · exact Or.inl h
          · exact Or.inr ⟨n', List.mem_cons_of_mem _ hn', h1, h2⟩
        · rintro (h | ⟨n', hn', h1, h2⟩)
          · exact Or.inl h
          · rcases List.mem_cons.1 hn' with rfl | hn'
            · exact absurd hdir h1
            · exact Or.inr ⟨n', hn', h1, h2⟩
      · rw [if_neg hdir]
        by_cases hsome : (getKey? acc n.directory).isSome
        · rw [if_pos hsome, ih acc hcanon p]
          have hentry : (n.directory,
              ({ id := "folder:" ++ n.directory,
                 label := n.directory } : FolderNode)) ∈ acc := by
            obtain ⟨v, hv⟩ := (getKey?_isSome_iff acc n.directory).1 hsome
            have hv2 := hcanon (n.directory, v) hv
            simp only at hv2
            rw [hv2] at hv
            exact hv
          constructor
          · rintro (h | ⟨n', hn', h1, h2⟩)
            · exact Or.inl h
            · exact Or.inr ⟨n', List.mem_cons_of_mem _ hn', h1, h2⟩
          · rintro (h | ⟨n', hn', h1, h2⟩)
            · exact Or.inl h
            · rcases List.mem_cons.1 hn' with rfl | hn'
              · exact Or.inl (h2 ▸ hentry)
              · exact Or.inr ⟨n', hn', h1, h2⟩
        · rw [if_neg hsome]
          have hcanon' : ∀ q ∈ acc ++
              [(n.directory,
                ({ id := "folder:" ++ n.directory,
                   label := n.directory } : FolderNode))],
              q.2 = { id := "folder:" ++ q.1, label := q.1 } := by
            intro q hq
            rcases List.mem_append.1 hq with hq | hq
            · exact hcanon q hq
            · rw [List.mem_singleton.1 hq]
          rw [ih _ hcanon' p]
          constructor
          · rintro (h | ⟨n', hn', h1, h2⟩)
            · rcases List.mem_append.1 h with h | h
              · exact Or.inl h
              · exact Or.inr ⟨n, List.mem_cons_self _ _, hdir,
                  List.mem_singleton.1 h⟩
            · exact Or.inr ⟨n', List.mem_cons_of_mem _ hn', h1, h2⟩
          · rintro (h | ⟨n', hn', h1, h2⟩)
            · exact Or.inl (List.mem_append.2 (Or.inl h))
            · rcases List.mem_cons.1 hn' with rfl | hn'
              · refine Or.inl (List.mem_append.2 (Or.inr ?_))
                rw [h2]
                exact List.mem_singleton.2 rfl
              · exact Or.inr ⟨n', hn', h1, h2⟩

/-- **C5 (amended).** For every node with a non-empty directory, the
node's folder container key is the node's **full** directory (no depth
truncation — no grouping depth exists): the generated containers are
exactly the elements `folder:<dir>` for the distinct non-empty
directories of the nodes, and every node with non-empty directory is
parented under `folder:` followed by its full directory. -/
theorem generateFolderNodes_spec (nodes : List Node) (fn : FolderNode) :
    (fn ∈ generateFolderNodes nodes ↔
      ∃ n ∈ nodes, n.directory ≠ "" ∧
        fn = { id := "folder:" ++ n.directory, label := n.directory }) ∧
    ∀ n : Node, n.directory ≠ "" →
      folderParent n = some ("folder:" ++ n.directory) := by
  constructor
  · rw [generateFolderNodes, List.mem_map]
    constructor
    · rintro ⟨p, hp, rfl⟩
      rw [generateFolderNodes_fold nodes [] (fun q hq => absurd hq
        (List.not_mem_nil q)) p] at hp
      rcases hp with h | ⟨n', hn', h1, rfl⟩
      · cases h
      · exact ⟨n', hn', h1, rfl⟩
    · rintro ⟨n', hn', h1, rfl⟩
      refine ⟨(n'.directory,
        { id := "folder:" ++ n'.directory, label := n'.directory }), ?_, rfl⟩
      rw [generateFolderNodes_fold nodes [] (fun q hq => absurd hq
        (List.not_mem_nil q))]
      exact Or.inr ⟨n', hn', h1, rfl⟩
  · intro n hdir
    rw [folderParent, if_neg hdir]

/-- Witness for C5's amended theorem at the concrete deep node. -/
theorem generateFolderNodes_spec_witness :
    ({ id := "folder:src/a/b/c", label := "src/a/b/c" } : FolderNode) ∈
      generateFolderNodes [nodeDeep] ∧
    folderParent nodeDeep = some "folder:src/a/b/c" := by
  have h := generateFolderNodes_spec [nodeDeep]
    { id := "folder:src/a/b/c", label := "src/a/b/c" }
  exact ⟨h.1.mpr ⟨nodeDeep, List.mem_cons_self _ _, by decide, rfl⟩,
    h.2 nodeDeep (by decide)⟩

/-- Counterexample for C5 as stated: the node with directory `src/a/b/c`
is grouped into the container keyed by the full directory, not into
`src/a` at depth 2 nor `src` at depth 1 as the truncation contract
requires. -/
theorem generateFolderNodes_no_truncation :
    generateFolderNodes [nodeDeep] =
      [{ id := "folder:src/a/b/c", label := "src/a/b/c" }] ∧
    specFolderKey "src/a/b/c" 2 = "src/a" ∧
    specFolderKey "src/a/b/c" 1 = "src" ∧
    ("folder:src/a/b/c" : String) ≠ "folder:" ++ specFolderKey "src/a/b/c" 2 ∧
    ("folder:src/a/b/c" : String) ≠ "folder:" ++ specFolderKey "src/a/b/c" 1 := by
  exact ⟨by decide, by decide, by decide, by decide, by decide⟩

/-! ### Highlight computation -/

theorem mem_cyOutgoerNodes (edges : List Edge) (sel x : String) :
    x ∈ cyOutgoerNodes edges sel ↔
      ∃ e ∈ edges, e.source = sel ∧ e.target = x := by
  suffices h : ∀ acc : List String,
      x ∈ edges.foldl
        (fun acc e => if e.source = sel then acc ++ [e.target] else acc) acc ↔
      x ∈ acc ∨ ∃ e ∈ edges, e.source = sel ∧ e.target = x by
    simpa [cyOutgoerNodes] using h []
  induction edges with
  | nil => intro acc; simp
  | cons e rest ih =>
      intro acc
      rw [List.foldl_cons]
      by_cases hs : e.source = sel
      · rw [if_pos hs, ih]
        constructor
        · rintro (h | ⟨e', he', h⟩)
          · rcases List.mem_append.1 h with h | h
            · exact Or.inl h
            · exact Or.inr ⟨e, List.mem_cons_self _ _,
                hs, (List.mem_singleton.1 h).symm⟩
          · exact Or.inr ⟨e', List.mem_cons_of_mem _ he', h⟩
        · rintro (h | ⟨e', he', h1, h2⟩)
          · exact Or.inl (List.mem_append.2 (Or.inl h))
          · rcases List.mem_cons.1 he' with rfl | he'
            · exact Or.inl (List.mem_append.2 (Or.inr (List.mem_singleton.2 h2.symm)))
            · exact Or.inr ⟨e', he', h1, h2⟩
      · rw [if_neg hs, ih]
        constructor
        · rintro (h | ⟨e', he', h⟩)
          · exact Or.inl h
          · exact Or.inr ⟨e', List.mem_cons_of_mem _ he', h⟩
        · rintro (h | ⟨e', he', h1, h2⟩)
          · exact Or.inl h
          · rcases List.mem_cons.1 he' with rfl | he'
            · exact absurd h1 hs
            · exact Or.inr ⟨e', he', h1, h2⟩

theorem mem_cyNeighborhoodNodes (edges : List Edge) (sel x : String) :
    x ∈ cyNeighborhoodNodes edges sel ↔
      ∃ e ∈ edges,
        (e.source = sel ∧ e.target = x) ∨ (e.target = sel ∧ e.source = x) := by
  suffices h : ∀ acc : List String,
      x ∈ edges.foldl
        (fun acc e =>
          if e.source = sel then acc ++ [e.target]
          else if e.target = sel then acc ++ [e.source]
          else acc) acc ↔
      x ∈ acc ∨ ∃ e ∈ edges,
        (e.source = sel ∧ e.target = x) ∨ (e.target = sel ∧ e.source = x) by
    simpa [cyNeighborhoodNodes] using h []
  induction edges with
  | nil => intro acc; simp
  | cons e rest ih =>
      intro acc
      rw [List.foldl_cons]
      by_cases hs : e.source = sel
      · rw [if_pos hs, ih]
        constructor
        · rintro (h | ⟨e', he', h⟩)
          · rcases List.mem_append.1 h with h | h
            · exact Or.inl h
            · exact Or.inr ⟨e, List.mem_cons_self _ _,
                Or.inl ⟨hs, (List.mem_singleton.1 h).symm⟩⟩
          · exact Or.inr ⟨e', List.mem_cons_of_mem _ he', h⟩
        · rintro (h | ⟨e', he', h⟩)
          · exact Or.inl (List.mem_append.2 (Or.inl h))
          · rcases List.mem_cons.1 he' with rfl | he'
            · rcases h with ⟨h1, h2⟩ | ⟨h1, h2⟩
              · exact Or.inl (List.mem_append.2 (Or.inr (List.mem_singleton.2 h2.symm)))
              · refine Or.inl (List.mem_append.2 (Or.inr (List.mem_singleton.2 ?_)))
                rw [← h2, hs, h1]
            · exact Or.inr ⟨e', he', h⟩
      · rw [if_neg hs]
        by_cases ht : e.target = sel
        · rw [if_pos ht, ih]
          constructor
          · rintro (h | ⟨e', he', h⟩)
            · rcases List.mem_append.1 h with h | h
              · exact Or.inl h
              · exact Or.inr ⟨e, List.mem_cons_self _ _,
                  Or.inr ⟨ht, (List.mem_singleton.1 h).symm⟩⟩
            · exact Or.inr ⟨e', List.mem_cons_of_mem _ he', h⟩
          · rintro (h | ⟨e', he', h⟩)
            · exact Or.inl (List.mem_append.2 (Or.inl h))
            · rcases List.mem_cons.1 he' with rfl | he'
              · rcases h with ⟨h1, h2⟩ | ⟨h1, h2⟩
                · exact absurd h1 hs
                · exact Or.inl (List.mem_append.2 (Or.inr (List.mem_singleton.2 h2.symm)))
              · exact Or.inr ⟨e', he', h⟩
        · rw [if_neg ht, ih]
          constructor
          · rintro (h | ⟨e', he', h⟩)
            · exact Or.inl h
            · exact Or.inr ⟨e', List.mem_cons_of_mem _ he', h⟩
          · rintro (h | ⟨e', he', h⟩)
            · exact Or.inl h
            · rcases List.mem_cons.1 he' with rfl | he'
              · rcases h with ⟨h1, _⟩ | ⟨h1, _⟩
                · exact absurd h1 hs
                · exact absurd h1 ht
              · exact Or.inr ⟨e', he', h⟩

/-- **C7 (amended).** For every selected node, the highlight computation
emphasises exactly the one-hop neighbourhood: the selected node is
highlighted; a node is marked connected iff it shares a direct edge
with the selected node (ancestors = direct one-hop incoming, and the
emphasised "descendants" are likewise only the direct one-hop outgoing
neighbours, not the transitive closure); every other node — transitive
descendants at distance two or more included — is dimmed. -/
theorem highlightNode_one_hop (allNodes : List String) (edges : List Edge)
    (sel x : String) :
    (x ∈ (highlightNode allNodes edges sel).highlighted ↔ x = sel) ∧
    (x ∈ (highlightNode allNodes edges sel).connected ↔
      ∃ e ∈ edges,
        (e.source = sel ∧ e.target = x) ∨ (e.target = sel ∧ e.source = x)) ∧
    (x ∈ (highlightNode allNodes edges sel).dimmed ↔
      x ∈ allNodes ∧ x ≠ sel ∧
        ¬∃ e ∈ edges,
          (e.source = sel ∧ e.target = x) ∨ (e.target = sel ∧ e.source = x)) := by
  have houtsub : x ∈ cyOutgoerNodes edges sel →
      ∃ e ∈ edges,
        (e.source = sel ∧ e.target = x) ∨ (e.target = sel ∧ e.source = x) := by
    intro hy
    obtain ⟨e, he, h1, h2⟩ := (mem_cyOutgoerNodes edges sel x).1 hy
    exact ⟨e, he, Or.inl ⟨h1, h2⟩⟩
  refine ⟨by simp [highlightNode], ?_, ?_⟩
  · have hconn : x ∈ (highlightNode allNodes edges sel).connected ↔
        x ∈ cyNeighborhoodNodes edges sel ∨ x ∈ cyOutgoerNodes edges sel := by
      simp [highlightNode]
    rw [hconn]
    constructor
    · rintro (h | h)
      · exact (mem_cyNeighborhoodNodes edges sel x).1 h
      · exact houtsub h
    · intro h
      exact Or.inl ((mem_cyNeighborhoodNodes edges sel x).2 h)
  · have hdim : x ∈ (highlightNode allNodes edges sel).dimmed ↔
        x ∈ allNodes ∧ x ≠ sel ∧ x ∉ cyNeighborhoodNodes edges sel ∧
          x ∉ cyOutgoerNodes edges sel := by
      simp only [highlightNode, List.mem_filter, decide_eq_true_eq]
      tauto
    rw [hdim]
    constructor
    · rintro ⟨h1, h2, h3, -⟩
      exact ⟨h1, h2, fun hf => h3 ((mem_cyNeighborhoodNodes edges sel x).2 hf)⟩
    · rintro ⟨h1, h2, h3⟩
      exact ⟨h1, h2,
        fun hm => h3 ((mem_cyNeighborhoodNodes edges sel x).1 hm),
        fun hm => h3 (houtsub hm)⟩

/-- Counterexample for C7 as stated: in the chain `a → b → c`,
highlighting `a` leaves the transitive descendant `c` dimmed and not
connected, although a two-hop outgoing path `a → b → c` exists; only the
one-hop descendant `b` is emphasised. -/
theorem highlightNode_not_transitive :
    "c" ∈ (highlightNode ["a", "b", "c"]
      [{ source := "a", target := "b" }, { source := "b", target := "c" }]
      "a").dimmed ∧
    "c" ∉ (highlightNode ["a", "b", "c"]
      [{ source := "a", target := "b" }, { source := "b", target := "c" }]
      "a").connected ∧
    "b" ∈ (highlightNode ["a", "b", "c"]
      [{ source := "a", target := "b" }, { source := "b", target := "c" }]
      "a").connected ∧
    ({ source := "a", target := "b" } : Edge) ∈
      [({ source := "a", target := "b" } : Edge), { source := "b", target := "c" }] ∧
    ({ source := "b", target := "c" } : Edge) ∈
      [({ source := "a", target := "b" } : Edge), { source := "b", target := "c" }] := by
  exact ⟨by decide, by decide, by decide, by decide, by decide⟩

/-! ### Reconciler -/

/-- **C4 (amended).** A reconciliation pass does not diff: it removes the
entire previously rendered element set and re-adds the full new snapshot
(equivalently `toRemove = P`, `toAdd = N`, `toKeep = ∅` as applied
mutations), so the result is independent of the previous elements, the
resulting rendered node-id list is exactly the new snapshot's node-id
list, and every node's position — kept ids included — is reassigned by
the fresh layout rather than preserved. -/
theorem reloadMainGraphRender_spec (old1 old2 : List CyNodeState) (g : Graph)
    (layout : String → Int) :
    reloadMainGraphRender old1 g layout = reloadMainGraphRender old2 g layout ∧
    (reloadMainGraphRender old1 g layout).map CyNodeState.id = g.nodes.map Node.id ∧
    ∀ c ∈ reloadMainGraphRender old1 g layout, c.position = layout c.id := by
  refine ⟨rfl, ?_, ?_⟩
  · simp [reloadMainGraphRender]
  · intro c hc
    obtain ⟨n, -, rfl⟩ := List.mem_map.1 hc
    rfl

/-- Witness for C4's amended theorem at a concrete reload. -/
theorem reloadMainGraphRender_spec_witness :
    reloadMainGraphRender [{ id := "a", important := false, position := 5 }]
        gKeep (fun _ => 0) =
      reloadMainGraphRender [] gKeep (fun _ => 0) ∧
    (reloadMainGraphRender [{ id := "a", important := false, position := 5 }]
        gKeep (fun _ => 0)).map CyNodeState.id = gKeep.nodes.map Node.id ∧
    ({ id := "a", important := false, position := 0 } : CyNodeState).position =
      (fun _ => (0 : Int)) "a" := by
  have h := reloadMainGraphRender_spec
    [{ id := "a", important := false, position := 5 }] [] gKeep (fun _ => 0)
  exact ⟨h.1, h.2.1,
    h.2.2 { id := "a", important := false, position := 0 } (by decide)⟩

/-- Counterexample for C4 as stated: node `a` is kept (`a ∈ P ∩ N`: it
was rendered before, at position 5, and is in the new snapshot), yet
after reconciliation its position is the fresh layout's 0, not its
pre-reconciliation 5. -/
theorem reloadMainGraph_position_not_preserved :
    ("a" : String) ∈
      ([{ id := "a", important := false, position := 5 }] :
        List CyNodeState).map CyNodeState.id ∧
    ("a" : String) ∈ gKeep.ids ∧
    reloadMainGraphRender [{ id := "a", important := false, position := 5 }]
        gKeep (fun _ => 0) =
      [{ id := "a", important := false, position := 0 }] ∧
    (5 : Int) ≠ 0 := by
  exact ⟨by decide, by decide, by decide, by decide⟩

/-! ### Graph Store reload failure paths -/

/-- **C3 (amended).** If the first snapshot fetch of a reload throws, the
Graph Store is left unmodified; but if the second (full-graph) fetch
throws after the first succeeded, the active graph has already been
replaced by the freshly fetched snapshot while the full graph keeps its
previous value — a partially applied snapshot. -/
theorem reloadMainGraphStore_failure (st : StoreState) (gNew : Graph)
    (fetchFull : Except Unit Graph) :
    reloadMainGraphStore st (Except.error ()) fetchFull = st ∧
    reloadMainGraphStore st (Except.ok gNew) (Except.error ()) =
      { st with graph := gNew } :=
  ⟨rfl, rfl⟩

/-- Counterexample for C3 as stated: a fetch involved in the reload (the
second one) fails, yet the stored active graph has changed to the new
snapshot — the Graph Store is not left unmodified. -/
theorem reloadMainGraphStore_partial_application :
    (reloadMainGraphStore { graph := gEmpty, fullGraph := gEmpty }
        (Except.ok gKeep) (Except.error ())).graph ≠ gEmpty ∧
    (reloadMainGraphStore { graph := gEmpty, fullGraph := gEmpty }
        (Except.ok gKeep) (Except.error ())).fullGraph = gEmpty := by
  exact ⟨by decide, by decide⟩

/-! ### Flag toggles -/

/-- **C8.** Whenever the external confirmation of an important-flag or
hidden-flag toggle fails, the local flag state — the important set, the
hidden set and the node's flag data — is unchanged from its value before
the toggle was attempted: the confirmation is awaited before any local
mutation, so the thrown rejection skips them all. -/
theorem toggle_failure_rollback (sel : String) (st : FlagState)
    (apiImp apiHid : String → Bool → Except Unit Unit)
    (hImp : apiImp sel (!decide (sel ∈ st.importantNodes)) = Except.error ())
    (hHid : apiHid sel (!decide (sel ∈ st.hiddenNodes)) = Except.error ()) :
    toggleImportant (some sel) apiImp st = st ∧
    toggleHidden (some sel) apiHid st = st := by
  constructor
  · simp only [toggleImportant, hImp]
  · simp only [toggleHidden, hHid]

/-- Witness for C8 with an always-failing flag store. -/
theorem toggle_failure_rollback_witness :
    toggleImportant (some "x") apiAlwaysFails
        { importantNodes := ["x"], hiddenNodes := [],
          nodeImportantData := [("x", true)] } =
      { importantNodes := ["x"], hiddenNodes := [],
        nodeImportantData := [("x", true)] } ∧
    toggleHidden (some "x") apiAlwaysFails
        { importantNodes := ["x"], hiddenNodes := [],
          nodeImportantData := [("x", true)] } =
      { importantNodes := ["x"], hiddenNodes := [],
        nodeImportantData := [("x", true)] } :=
  toggle_failure_rollback "x"
    { importantNodes := ["x"], hiddenNodes := [], nodeImportantData := [("x", true)] }
    apiAlwaysFails apiAlwaysFails rfl rfl

/-! ### Change notifications -/

theorem reloadsTriggered_foldl (messages : List WsMessage) :
    ∀ acc : Nat,
      messages.foldl
        (fun n m =>
          match m with
          | WsMessage.parsed t => if t = "graph_updated" then n + 1 else n
          | WsMessage.malformed => n) acc =
      acc + (messages.filter isGraphUpdated).length := by
  induction messages with
  | nil => intro acc; simp
  | cons m rest ih =>
      intro acc
      rw [List.foldl_cons]
      cases m with
      | parsed t =>
          have hstep : (match WsMessage.parsed t with
              | WsMessage.parsed t => if t = "graph_updated" then acc + 1 else acc
              | WsMessage.malformed => acc) =
              if t = "graph_updated" then acc + 1 else acc := rfl
          rw [hstep]
          by_cases h : t = "graph_updated"
          · rw [if_pos h, ih,
              List.filter_cons_of_pos (by simp [isGraphUpdated, h]),
              List.length_cons]
            omega
          · rw [if_neg h, ih,
              List.filter_cons_of_neg (by simp [isGraphUpdated, h])]
      | malformed =>
          rw [ih, List.filter_cons_of_neg (by simp [isGraphUpdated])]

/-- **C1 (amended).** The `onmessage` handler triggers exactly one
reconciliation pass per `graph_updated` notification, immediately: a
stream of n notifications triggers n passes. There is no pending
counter and no user apply action — reconciliation is not gated on any
apply, and nothing is coalesced. -/
theorem reloadsTriggered_per_notification (messages : List WsMessage) (n : Nat) :
    reloadsTriggered messages = (messages.filter isGraphUpdated).length ∧
    reloadsTriggered (List.replicate n (WsMessage.parsed "graph_updated")) = n := by
  constructor
  · rw [reloadsTriggered, reloadsTriggered_foldl]
    omega
  · rw [reloadsTriggered, reloadsTriggered_foldl]
    have hrep : (List.replicate n (WsMessage.parsed "graph_updated")).filter
        isGraphUpdated = List.replicate n (WsMessage.parsed "graph_updated") := by
      apply List.filter_eq_self.2
      intro a ha
      rw [List.eq_of_mem_replicate ha]
      simp [isGraphUpdated]
    rw [hrep, List.length_replicate]
    omega

/-- Counterexample for C1 as stated: a single `graph_updated`
notification — with no user apply action anywhere (the handler has no
pending counter and takes no apply input) — immediately triggers one
reconciliation pass rather than zero. -/
theorem reload_triggered_without_apply :
    reloadsTriggered [WsMessage.parsed "graph_updated"] = 1 ∧ (1 : Nat) ≠ 0 := by
  exact ⟨by decide, by decide⟩

end GraphView

